import Mathlib

/-!
Verification of the podcast-generate pipeline (text segmentation, dialogue-script
parsing, concurrent synthesis fan-out/fan-in, WAV concatenation, BGM mix planning).

Strings from the TypeScript source are modelled as `List Char`; JavaScript numbers
are modelled as `ℚ` (the numeric literals appearing in scripts and CLI defaults are
exact decimals); fallible operations return `Except`/`Option`.
-/

/-- Whitespace class used by JavaScript `String.prototype.trim` and by `\s` in
regular expressions: WhiteSpace plus LineTerminator code points. -/
def isJsWs (c : Char) : Bool :=
  c = ' ' || c = '\t' || c = '\n' || c = '\x0d' || c = '\x0b' || c = '\x0c' ||
  c = ' ' || c = ' ' || (' ' ≤ c && c ≤ ' ') ||
  c = ' ' || c = ' ' || c = ' ' || c = ' ' ||
  c = '　' || c = '﻿'

/-- LineTerminator code points, the characters NOT matched by `.` in a JavaScript
regular expression without the `s` flag. -/
def isLineTerm (c : Char) : Bool :=
  c = '\n' || c = '\x0d' || c = ' ' || c = ' '

/-- Word characters matched by `\w` in a JavaScript regular expression. -/
def isWordChar (c : Char) : Bool :=
  c.isAlphanum || c = '_'

/-- JavaScript `String.prototype.trim`: remove leading and trailing whitespace. -/
def jsTrim (l : List Char) : List Char :=
  ((l.dropWhile isJsWs).reverse.dropWhile isJsWs).reverse

/-- JavaScript `String.prototype.lastIndexOf` restricted to a single-character
needle: index of the last occurrence of `c`, if any. -/
def lastIndexOfChar (c : Char) : List Char → Option Nat
  | [] => none
  | x :: xs =>
    match lastIndexOfChar c xs with
    | some k => some (k + 1)
    | none => if x = c then some 0 else none

/-- One-loop-per-fuel-unit embedding of `splitText` (voiceService.ts lines
211-234): while the remaining text exceeds `maxLength`, cut after the last
ideographic full stop of the first `maxLength` characters if one exists,
otherwise hard-cut at `maxLength`; the remainder is trimmed after each cut.
Returns `none` when `fuel` loop iterations do not reach an empty remainder. -/
def splitTextFuel (maxLength : Nat) : Nat → List Char → Option (List (List Char))
  | _, [] => some []
  | 0, _ :: _ => none
  | fuel + 1, c :: cs =>
    let remaining := c :: cs
    if remaining.length ≤ maxLength then some [remaining]
    else
      let chunk := remaining.take maxLength
      match lastIndexOfChar '。' chunk with
      | some k =>
        (splitTextFuel maxLength fuel (jsTrim (remaining.drop (k + 1)))).map
          (remaining.take (k + 1) :: ·)
      | none =>
        (splitTextFuel maxLength fuel (jsTrim (remaining.drop maxLength))).map
          (chunk :: ·)

/-- The `splitText` helper of voiceService.ts, run with enough fuel for one loop
iteration per input character; `none` models non-termination of the source loop
within that bound (which never happens for `1 ≤ maxLength`, see below). -/
def splitText (text : List Char) (maxLength : Nat) : Option (List (List Char)) :=
  splitTextFuel maxLength text.length text

/-- Concatenation of chunks interleaved with separator strings: for chunk list
`c1, ..., cn` and separator list `s1, ..., sn` of the same length this denotes
`c1 ++ s1 ++ c2 ++ s2 ++ ... ++ cn ++ sn`. -/
def interleave : List (List Char) → List (List Char) → List Char
  | c :: cs, s :: ss => c ++ (s ++ interleave cs ss)
  | _, _ => []

/-- Format descriptor emitted by the `wav` package Reader
(audioFormat, channels, sampleRate, bitDepth). -/
structure WavFormat where
  audioFormat : Nat
  channels : Nat
  sampleRate : Nat
  bitDepth : Nat
deriving DecidableEq

/-- Decoded view of a WAV byte buffer: the declared format, the payload of the
data chunk, and `extra` for bytes that are not part of the fmt/data chunks (the
Reader ignores them, and the Writer never emits them, so a freshly re-encoded
buffer always has `extra = []`). -/
structure WavBuffer where
  format : WavFormat
  data : List Nat
  extra : List Nat
deriving DecidableEq

/-- Embedding of `combineAudioBuffers` (voiceService.ts lines 259-352): an empty
input is rejected; a single buffer is returned as-is without decode or
re-encode; otherwise every buffer is decoded, the format captured from the FIRST
buffer alone (the source registers a `format` listener only for index 0 and
compares nothing), all data payloads are concatenated in input order, and the
result is re-encoded under the first buffer's format. -/
def combineAudioBuffers : List WavBuffer → Except String WavBuffer
  | [] => Except.error "No audio buffers to combine"
  | [b] => Except.ok b
  | b :: rest =>
    Except.ok { format := b.format
                data := ((b :: rest).map WavBuffer.data).flatten
                extra := [] }

/-- A dialogue line as produced by scriptParser.ts: speaker id, trimmed text,
and optional per-line overrides for pitch, intonation scale and speed. -/
structure DialogueLine where
  characterId : Nat
  text : List Char
  pitch : Option ℚ
  intonationScale : Option ℚ
  speed : Option ℚ
deriving DecidableEq

/-- Value of a nonempty decimal-digit string, as computed by `parseInt(s, 10)`. -/
def digitsToNat (ds : List Char) : Nat :=
  ds.foldl (fun n c => 10 * n + (c.toNat - '0'.toNat)) 0

/-- Exact value of the decimal literal `intPart.fracPart`, as recovered by
`parseFloat` on a string matching `\d+\.?\d*` (modelled exactly in `ℚ`). -/
def decimalValue (intPart fracPart : List Char) : ℚ :=
  (digitsToNat intPart : ℚ) + (digitsToNat fracPart : ℚ) / (10 : ℚ) ^ fracPart.length

/-- Matcher for the anchored value pattern `-?\d+\.?\d*$` of scriptParser.ts's
parameter regex, combined with `parseFloat` of the matched text: an optional
minus sign, a nonempty integer part, optionally a dot followed by only digits. -/
def matchNumberTail (l : List Char) : Option ℚ :=
  let ip := l.takeWhile Char.isDigit
  if ip.isEmpty then none
  else
    match l.dropWhile Char.isDigit with
    | [] => some (decimalValue ip [])
    | '.' :: fs => if fs.all Char.isDigit then some (decimalValue ip fs) else none
    | _ => none

/-- Signed variant of `matchNumberTail`, handling the leading `-?`. -/
def matchNumber (l : List Char) : Option ℚ :=
  match l with
  | '-' :: r => (matchNumberTail r).map Neg.neg
  | _ => matchNumberTail l

/-- Matcher for `^(\w+)\s*=\s*(-?\d+\.?\d*)$` applied to one trimmed parameter
pair (scriptParser.ts lines 96-109), returning the key and the parsed value. -/
def matchParamPair (pair : List Char) : Option (List Char × ℚ) :=
  let key := pair.takeWhile isWordChar
  if key.isEmpty then none
  else
    match (pair.dropWhile isWordChar).dropWhile isJsWs with
    | '=' :: r => (matchNumber (r.dropWhile isJsWs)).map (fun v => (key, v))
    | _ => none

/-- Accumulator for `parseParameters`: each recognized key, when matched again,
overwrites the previous value, exactly as repeated assignment does in the
source. -/
structure ParsedParams where
  pitch : Option ℚ
  intonationScale : Option ℚ
  speed : Option ℚ
deriving DecidableEq

/-- Embedding of `parseParameters` (scriptParser.ts lines 90-127): split the
parameter string on commas, trim each pair, and fold recognized
`key=numericValue` pairs into the parameter record; malformed pairs and
unrecognized keys are skipped. -/
def parseParameters (s : List Char) : ParsedParams :=
  ((s.splitOn ',').map jsTrim).foldl
    (fun acc pair =>
      match matchParamPair pair with
      | none => acc
      | some (key, v) =>
        if key = "pitch".toList then { acc with pitch := some v }
        else if key = "intonationScale".toList then { acc with intonationScale := some v }
        else if key = "speed".toList then { acc with speed := some v }
        else acc)
    ⟨none, none, none⟩

/-- Matcher for the trailing `\s*.+$` of the dialogue-line regex: some (possibly
empty) whitespace run followed by at least one character, where `.` cannot match
a LineTerminator. `t` below is the longest LineTerminator-free suffix. -/
def matchAfterColon (rest : List Char) : Bool :=
  let t := (rest.reverse.takeWhile (fun c => !isLineTerm c)).reverse
  !t.isEmpty && (rest.take (rest.length - t.length)).all isJsWs

/-- Matcher for the dialogue-line regex `^@(\d+)(?:\(([^)]+)\))?:\s*(.+)$` of
scriptParser.ts: returns the digit group, the optional parameter group, and the
remainder after the colon (the captured text is that remainder up to the
whitespace the source trims away anyway). The greedy quantifiers need no
backtracking here: `\d+` cannot end before a non-digit, `[^)]+` must stop at the
first closing parenthesis, and the optional group cannot be skipped when a `(`
follows the digits. -/
def lineMatch (line : List Char) : Option (List Char × Option (List Char) × List Char) :=
  match line with
  | [] => none
  | a :: r0 =>
    if a = '@' then
      let ds := r0.takeWhile Char.isDigit
      if ds.isEmpty then none
      else
        match r0.dropWhile Char.isDigit with
        | [] => none
        | b :: r1 =>
          if b = ':' then
            if matchAfterColon r1 then some (ds, none, r1) else none
          else if b = '(' then
            let ps := r1.takeWhile (fun c => c ≠ ')')
            if ps.isEmpty then none
            else
              match r1.dropWhile (fun c => c ≠ ')') with
              | [] => none
              | e :: r3 =>
                if e = ')' then
                  match r3 with
                  | [] => none
                  | d :: rest =>
                    if d = ':' then
                      if matchAfterColon rest then some (ds, some ps, rest) else none
                    else none
                else none
          else none
    else none

/-- Embedding of the per-line body of `parseDialogueScript` (scriptParser.ts
lines 39-82): trim the raw line, skip blank lines, lines not matching the
dialogue regex, and lines whose trimmed text is empty; otherwise build a
`DialogueLine`, attaching parsed parameters when the parenthesised group is
present. (The `isNaN` guard of the source never fires: the digit group is
nonempty.) -/
def parseLine (rawLine : List Char) : Option DialogueLine :=
  let line := jsTrim rawLine
  if line.isEmpty then none
  else
    match lineMatch line with
    | none => none
    | some (ds, psOpt, rest) =>
      let text := jsTrim rest
      if text.isEmpty then none
      else
        match psOpt with
        | none => some ⟨digitsToNat ds, text, none, none, none⟩
        | some ps =>
          let params := parseParameters ps
          some ⟨digitsToNat ds, text, params.pitch, params.intonationScale, params.speed⟩

/-- Embedding of `parseDialogueScript` (scriptParser.ts lines 35-85): split the
content on newlines and keep the lines accepted by `parseLine`, in order. -/
def parseDialogueScript (content : List Char) : List DialogueLine :=
  (content.splitOn '\n').filterMap parseLine

/-- The non-blank trimmed lines a document is classified from. -/
def nonBlankLines (content : List Char) : List (List Char) :=
  ((content.splitOn '\n').map jsTrim).filter (fun l => !l.isEmpty)

/-- Embedding of `isDialogueScript` (scriptParser.ts lines 23-30): a document is
a dialogue script when at least one non-blank trimmed line matches
`^@\d+(\([^)]+\))?:\s*.+$`. -/
def isDialogueScript (content : List Char) : Bool :=
  (nonBlankLines content).any (fun line => (lineMatch line).isSome)

/-- Modelled from the spec: the trailing "remaining text" of the dialogue-line
pattern, made precise as the regex fragment `\s*.+` is: a whitespace run
followed by at least one character, none of which is a LineTerminator. -/
def SpecRemainingText (rest : List Char) : Prop :=
  ∃ w t, rest = w ++ t ∧ (∀ c ∈ w, isJsWs c = true) ∧ t ≠ [] ∧
    ∀ c ∈ t, isLineTerm c = false

/-- Modelled from the spec: "at-sign, integer speaker id, optional parenthesised
parameter list, colon, remaining text" (spec.md section 4.2), stated as a plain
decomposition of the line. -/
def SpecDialoguePattern (line : List Char) : Prop :=
  ∃ ds rest, ds ≠ [] ∧ (∀ c ∈ ds, c.isDigit = true) ∧ SpecRemainingText rest ∧
    (line = '@' :: ds ++ ':' :: rest ∨
     ∃ ps, ps ≠ [] ∧ (∀ c ∈ ps, c ≠ ')') ∧
       line = '@' :: ds ++ '(' :: ps ++ ')' :: ':' :: rest)

/-- One synthesis request as sent to `generateVoice`: the chunk text, the
speaker id, and the three prosody parameters after per-line override
resolution. -/
structure VoiceRequest where
  text : List Char
  characterId : Nat
  pitch : ℚ
  intonationScale : ℚ
  speed : ℚ
deriving DecidableEq

/-- Embedding of the per-line unit construction of dialogue mode (voiceService.ts
lines 460-483): the line text is segmented with the default chunk bound 600, and
every chunk of the line inherits the line's overrides, falling back to the
run-level defaults `dp`, `di`, `ds` when a field is absent. -/
def buildLineUnits (dp di ds : ℚ) (line : DialogueLine) : Option (List VoiceRequest) :=
  (splitText line.text 600).map fun chunks =>
    chunks.map fun chunk =>
      { text := chunk
        characterId := line.characterId
        pitch := line.pitch.getD dp
        intonationScale := line.intonationScale.getD di
        speed := line.speed.getD ds }

/-- Result of `Promise.all` over a list of settled outcomes: the list of values
when every call succeeded, otherwise a rejection carrying one of the failures.
Concretely the first listed failure is returned; the claims proved below only
use that SOME failure is returned. -/
def promiseAll {ε α : Type} : List (Except ε α) → Except ε (List α)
  | [] => Except.ok []
  | Except.error e :: _ => Except.error e
  | Except.ok a :: rest => (promiseAll rest).map (a :: ·)

/-- Fan-in stage of `generateAudio` for one run: await all per-unit synthesis
outcomes and concatenate the resulting buffers. The source writes the output
file only from the `ok` payload (voiceService.ts lines 545-568), so an `error`
result models "the run fails and no output file is written". -/
def runSynthesis (results : List (Except String WavBuffer)) : Except String WavBuffer :=
  match promiseAll results with
  | Except.error e => Except.error e
  | Except.ok bufs => combineAudioBuffers bufs

/-- Comparison key used by the fan-in sort `(a, b) => a.index - b.index`
(voiceService.ts lines 487-488 and 548-549), on results tagged with their
position index at dispatch time. -/
def keyLE {β : Type} (a b : Nat × β) : Prop := a.1 ≤ b.1

instance {β : Type} : DecidableRel (@keyLE β) :=
  fun a b => Nat.decLe a.1 b.1

instance {β : Type} : IsTotal (Nat × β) (@keyLE β) :=
  ⟨fun a b => Nat.le_total a.1 b.1⟩

instance {β : Type} : IsTrans (Nat × β) (@keyLE β) :=
  ⟨fun _ _ _ h1 h2 => Nat.le_trans h1 h2⟩

/-- The fan-in reordering of `generateAudio`: sort the completed, tagged results
by their dispatch-time index. The source sorts with the comparator
`a.index - b.index`, a comparison sort over `keyLE`; since any correct
comparison sort of a list with pairwise-distinct keys has a unique result,
insertion sort is a faithful embedding. -/
def sortByIndex {β : Type} (l : List (Nat × β)) : List (Nat × β) :=
  List.insertionSort (@keyLE β) l

/-- Validation hard limit of `generateAudio` (voiceService.ts line 391). -/
def MAX_TEXT_LENGTH : Nat := 100000

/-- Failure modes of the request-planning part of `generateAudio` modelled
here; each corresponds to one `throw new Error(...)` of the source. -/
inductive GenError where
  | emptyInput
  | inputTooLong (len : Nat)
  | noValidDialogueLines
  | characterIdRequired
deriving DecidableEq

/-- Embedding of the front half of `generateAudio` (voiceService.ts lines
384-543), up to the point where the list of synthesis requests for the run is
fixed: validate the input text, detect the mode, and build one request per
(line, chunk) in dialogue mode or per chunk in single-speaker mode. Filesystem
validation (output directory, BGM file presence) is outside the model. In
single-speaker mode a missing character id is rejected before the text is
chunked and before any request exists. -/
def planRequests (text : List Char) (characterId : Option Nat) (dp di ds : ℚ) :
    Except GenError (List VoiceRequest) :=
  if text = [] then Except.error GenError.emptyInput
  else if MAX_TEXT_LENGTH < text.length then Except.error (GenError.inputTooLong text.length)
  else if isDialogueScript text then
    let lines := parseDialogueScript text
    if lines = [] then Except.error GenError.noValidDialogueLines
    else Except.ok (lines.flatMap fun line => (buildLineUnits dp di ds line).getD [])
  else
    match characterId with
    | none => Except.error GenError.characterIdRequired
    | some cid =>
      Except.ok (((splitText text 600).getD []).map fun chunk =>
        { text := chunk, characterId := cid, pitch := dp, intonationScale := di, speed := ds })

/-- One entry of the ffmpeg `complexFilter` array built for BGM mixing,
structurally: concatenation of `n` copies of the background, the volume filter,
and the `amix` filter with `duration=first` (output clipped to the voice
track). -/
inductive MixFilter where
  | concatBgm (n : Nat)
  | bgmVolume (v : ℚ)
  | amixDurationFirst
deriving DecidableEq

/-- The ffmpeg invocation planned for BGM mixing: its ordered input files and
its filter chain. -/
structure MixCommand where
  inputs : List String
  filters : List MixFilter
deriving DecidableEq

/-- Embedding of the BGM mix-command construction of `generateAudio`
(voiceService.ts lines 589-629): when the background is shorter than the voice,
the background input is added `Math.ceil(voiceDuration / bgmDuration)` times and
a concat filter of that arity loops it; otherwise the background is used once
and no concat filter is emitted. -/
def buildMixCommand (voiceFile bgmFile : String) (voiceDuration bgmDuration vol : ℚ) :
    MixCommand :=
  if bgmDuration < voiceDuration then
    let loopCount := (⌈voiceDuration / bgmDuration⌉).toNat
    { inputs := voiceFile :: List.replicate loopCount bgmFile
      filters := [MixFilter.concatBgm loopCount, MixFilter.bgmVolume vol,
                  MixFilter.amixDurationFirst] }
  else
    { inputs := [voiceFile, bgmFile]
      filters := [MixFilter.bgmVolume vol, MixFilter.amixDurationFirst] }

/-- Concrete multi-chunk dialogue line for the override claim: its text is 601
characters with a sentence break after character 301, so segmentation at the
default bound 600 yields two chunks; pitch is overridden, the other fields are
absent. -/
def overrideLineEx : DialogueLine :=
  ⟨5, List.replicate 300 'あ' ++ '。' :: List.replicate 300 'い', some (1 / 4), none, none⟩

/-- The two synthesis units expected for `overrideLineEx` under run-level
defaults (0, 1, 1): the pitch override applies to both chunks, and the absent
intonation scale and speed fall back to the defaults. -/
def overrideUnitsEx : List VoiceRequest :=
  [⟨List.replicate 300 'あ' ++ ['。'], 5, 1 / 4, 1, 1⟩,
   ⟨List.replicate 300 'い', 5, 1 / 4, 1, 1⟩]

/-- Concrete two-element input for the format-compatibility claim: a buffer
declaring sample rate 24000. -/
def mismatchLeft : WavBuffer := ⟨⟨1, 1, 24000, 16⟩, [1, 2], []⟩

/-- Concrete second buffer declaring a different sample rate, 44100. -/
def mismatchRight : WavBuffer := ⟨⟨1, 1, 44100, 16⟩, [3, 4], []⟩

theorem jsTrim_decomp (l : List Char) :
    ∃ pre post, (∀ c ∈ pre, isJsWs c = true) ∧ (∀ c ∈ post, isJsWs c = true) ∧
      l = pre ++ jsTrim l ++ post := by
  refine ⟨l.takeWhile isJsWs, ((l.dropWhile isJsWs).reverse.takeWhile isJsWs).reverse,
    fun c hc => List.mem_takeWhile_imp hc,
    fun c hc => List.mem_takeWhile_imp (List.mem_reverse.mp hc), ?_⟩
  have h3 : l.dropWhile isJsWs =
      jsTrim l ++ ((l.dropWhile isJsWs).reverse.takeWhile isJsWs).reverse := by
    calc l.dropWhile isJsWs
        = ((l.dropWhile isJsWs).reverse).reverse := (List.reverse_reverse _).symm
      _ = ((l.dropWhile isJsWs).reverse.takeWhile isJsWs ++
            (l.dropWhile isJsWs).reverse.dropWhile isJsWs).reverse := by
          rw [List.takeWhile_append_dropWhile]
      _ = ((l.dropWhile isJsWs).reverse.dropWhile isJsWs).reverse ++
            ((l.dropWhile isJsWs).reverse.takeWhile isJsWs).reverse := by
          rw [List.reverse_append]
      _ = jsTrim l ++ ((l.dropWhile isJsWs).reverse.takeWhile isJsWs).reverse := rfl
  calc l = l.takeWhile isJsWs ++ l.dropWhile isJsWs :=
        (List.takeWhile_append_dropWhile isJsWs l).symm
    _ = l.takeWhile isJsWs ++
          (jsTrim l ++ ((l.dropWhile isJsWs).reverse.takeWhile isJsWs).reverse) := by
        rw [← h3]
    _ = l.takeWhile isJsWs ++ jsTrim l ++
          ((l.dropWhile isJsWs).reverse.takeWhile isJsWs).reverse := by
        rw [List.append_assoc]

theorem jsTrim_length_le (l : List Char) : (jsTrim l).length ≤ l.length := by
  obtain ⟨pre, post, -, -, h⟩ := jsTrim_decomp l
  conv_rhs => rw [h]
  simp only [List.length_append]
  omega

theorem all_ws_of_jsTrim_eq_nil {l : List Char} (h : jsTrim l = []) :
    ∀ c ∈ l, isJsWs c = true := by
  obtain ⟨pre, post, hpre, hpost, hl⟩ := jsTrim_decomp l
  rw [h] at hl
  intro c hc
  rw [hl] at hc
  simp only [List.append_nil, List.mem_append] at hc
  rcases hc with hc | hc
  · exact hpre c hc
  · exact hpost c hc

theorem lastIndexOfChar_lt_length {c : Char} :
    ∀ {l : List Char} {k : Nat}, lastIndexOfChar c l = some k → k < l.length := by
  intro l
  induction l with
  | nil => intro k h; simp [lastIndexOfChar] at h
  | cons x xs ih =>
    intro k h
    simp only [lastIndexOfChar] at h
    cases hrec : lastIndexOfChar c xs with
    | some k2 =>
      rw [hrec] at h
      simp only [Option.some.injEq] at h
      subst h
      exact Nat.succ_lt_succ (ih hrec)
    | none =>
      rw [hrec] at h
      by_cases hx : x = c
      · rw [if_pos hx] at h
        obtain rfl : (0 : Nat) = k := by injection h
        exact Nat.succ_pos _
      · simp [hx] at h

theorem takeWhile_append_all {p : Char → Bool} :
    ∀ (xs l : List Char), (∀ x ∈ xs, p x = true) →
      (xs ++ l).takeWhile p = xs ++ l.takeWhile p ∧ (xs ++ l).dropWhile p = l.dropWhile p := by
  intro xs
  induction xs with
  | nil => intro l _; simp
  | cons x xs ih =>
    intro l h
    have hx : p x = true := h x (List.mem_cons_self x xs)
    have := ih l (fun y hy => h y (List.mem_cons_of_mem x hy))
    simp [List.takeWhile_cons, List.dropWhile_cons, hx, this.1, this.2]

theorem interleave_absorb {post : List Char} (hpost : ∀ c ∈ post, isJsWs c = true) :
    ∀ (cs ss : List (List Char)), cs ≠ [] → ss.length = cs.length →
      (∀ s ∈ ss, ∀ c ∈ s, isJsWs c = true) →
      ∃ ss2, ss2.length = cs.length ∧ (∀ s ∈ ss2, ∀ c ∈ s, isJsWs c = true) ∧
        interleave cs ss2 = interleave cs ss ++ post := by
  intro cs
  induction cs with
  | nil => intro ss h; exact absurd rfl h
  | cons c cstail ih =>
    intro ss _ hlen hws
    cases ss with
    | nil => simp at hlen
    | cons s sstail =>
      cases cstail with
      | nil =>
        cases sstail with
        | nil =>
          refine ⟨[s ++ post], rfl, ?_, ?_⟩
          · intro s2 hs2 ch hch
            simp only [List.mem_singleton] at hs2
            subst hs2
            rcases List.mem_append.mp hch with h | h
            · exact hws s (List.mem_cons_self s []) ch h
            · exact hpost ch h
          · simp [interleave, List.append_assoc]
        | cons => simp at hlen
      | cons c2 cstail2 =>
        have hlen2 : sstail.length = (c2 :: cstail2).length := by simpa using hlen
        obtain ⟨ss2, hl2, hw2, he2⟩ := ih sstail (by simp) hlen2
          (fun s2 hs2 => hws s2 (List.mem_cons_of_mem s hs2))
        refine ⟨s :: ss2, by simp [hl2], ?_, ?_⟩
        · intro s2 hs2
          rcases List.mem_cons.mp hs2 with h | h
          · subst h; exact hws s2 (List.mem_cons_self _ _)
          · exact hw2 s2 h
        · simp only [interleave, he2, List.append_assoc]

theorem splitTextFuel_isSome (m : Nat) (hm : 1 ≤ m) :
    ∀ (fuel : Nat) (remaining : List Char), remaining.length ≤ fuel →
      (splitTextFuel m fuel remaining).isSome := by
  intro fuel
  induction fuel with
  | zero =>
    intro remaining h
    cases remaining with
    | nil => simp [splitTextFuel]
    | cons c cs => simp at h
  | succ fuel ih =>
    intro remaining h
    cases remaining with
    | nil => simp [splitTextFuel]
    | cons c cs =>
      simp only [splitTextFuel]
      split
      · simp
      · rename_i hlen
        split
        · rename_i k hk
          have hrec : (jsTrim ((c :: cs).drop (k + 1))).length ≤ fuel := by
            have h1 := jsTrim_length_le ((c :: cs).drop (k + 1))
            have h2 : ((c :: cs).drop (k + 1)).length = (c :: cs).length - (k + 1) := by
              simp [List.length_drop]
            have h3 : (c :: cs).length ≤ fuel + 1 := h
            omega
          have h4 := ih _ hrec
          rw [Option.isSome_map']
          exact h4
        · have hrec : (jsTrim ((c :: cs).drop m)).length ≤ fuel := by
            have h1 := jsTrim_length_le ((c :: cs).drop m)
            have h2 : ((c :: cs).drop m).length = (c :: cs).length - m := by
              simp [List.length_drop]
            have h3 : (c :: cs).length ≤ fuel + 1 := h
            omega
          have h4 := ih _ hrec
          rw [Option.isSome_map']
          exact h4

theorem splitTextFuel_chunk_le (m : Nat) :
    ∀ (fuel : Nat) (remaining : List Char) (out : List (List Char)),
      splitTextFuel m fuel remaining = some out → ∀ ch ∈ out, ch.length ≤ m := by
  intro fuel
  induction fuel with
  | zero =>
    intro remaining out h
    cases remaining with
    | nil =>
      simp only [splitTextFuel, Option.some.injEq] at h
      subst h
      intro ch hch
      simp at hch
    | cons c cs => simp [splitTextFuel] at h
  | succ fuel ih =>
    intro remaining out h
    cases remaining with
    | nil =>
      simp only [splitTextFuel, Option.some.injEq] at h
      subst h
      intro ch hch
      simp at hch
    | cons c cs =>
      simp only [splitTextFuel] at h
      split at h
      · rename_i hlen
        simp only [Option.some.injEq] at h
        subst h
        intro ch hch
        simp only [List.mem_singleton] at hch
        subst hch
        exact hlen
      · rename_i hlen
        split at h
        · rename_i k hk
          obtain ⟨out2, hrec, rfl⟩ := Option.map_eq_some'.mp h
          intro ch hch
          rcases List.mem_cons.mp hch with h1 | h1
          · subst h1
            have hk2 : k < ((c :: cs).take m).length := lastIndexOfChar_lt_length hk
            have h5 : ((c :: cs).take m).length ≤ m := List.length_take_le _ _
            have h6 : ((c :: cs).take (k + 1)).length ≤ k + 1 := List.length_take_le _ _
            omega
          · exact ih _ _ hrec ch h1
        · obtain ⟨out2, hrec, rfl⟩ := Option.map_eq_some'.mp h
          intro ch hch
          rcases List.mem_cons.mp hch with h1 | h1
          · subst h1
            exact List.length_take_le _ _
          · exact ih _ _ hrec ch h1

theorem splitTextFuel_interleave (m : Nat) :
    ∀ (fuel : Nat) (remaining : List Char) (out : List (List Char)),
      splitTextFuel m fuel remaining = some out →
      ∃ seps, seps.length = out.length ∧ (∀ s ∈ seps, ∀ ch ∈ s, isJsWs ch = true) ∧
        interleave out seps = remaining := by
  intro fuel
  induction fuel with
  | zero =>
    intro remaining out h
    cases remaining with
    | nil =>
      simp only [splitTextFuel, Option.some.injEq] at h
      subst h
      exact ⟨[], rfl, by simp, rfl⟩
    | cons c cs => simp [splitTextFuel] at h
  | succ fuel ih =>
    intro remaining out h
    cases remaining with
    | nil =>
      simp only [splitTextFuel, Option.some.injEq] at h
      subst h
      exact ⟨[], rfl, by simp, rfl⟩
    | cons c cs =>
      simp only [splitTextFuel] at h
      split at h
      · simp only [Option.some.injEq] at h
        subst h
        refine ⟨[[]], rfl, by simp, ?_⟩
        simp [interleave]
      · rename_i hlen
        split at h
        · rename_i k hk
          obtain ⟨out2, hrec, rfl⟩ := Option.map_eq_some'.mp h
          obtain ⟨seps2, hl2, hw2, he2⟩ := ih _ _ hrec
          obtain ⟨pre, post, hpre, hpost2, hdec⟩ := jsTrim_decomp ((c :: cs).drop (k + 1))
          cases out2 with
          | nil =>
            have hnil : jsTrim ((c :: cs).drop (k + 1)) = [] := by
              cases seps2 with
              | nil => exact he2.symm
              | cons a b => simp at hl2
            refine ⟨[(c :: cs).drop (k + 1)], rfl, ?_, ?_⟩
            · intro s hs ch hch
              simp only [List.mem_singleton] at hs
              subst hs
              exact all_ws_of_jsTrim_eq_nil hnil ch hch
            · show (c :: cs).take (k + 1) ++ ((c :: cs).drop (k + 1) ++ interleave [] []) = c :: cs
              simp [interleave, List.take_append_drop]
          | cons o2 out3 =>
            obtain ⟨ss2, hss2len, hss2ws, hss2eq⟩ :=
              interleave_absorb hpost2 (o2 :: out3) seps2 (by simp) hl2 hw2
            refine ⟨pre :: ss2, by simp [hss2len], ?_, ?_⟩
            · intro s hs
              rcases List.mem_cons.mp hs with h1 | h1
              · subst h1; exact hpre
              · exact hss2ws s h1
            · show (c :: cs).take (k + 1) ++ (pre ++ interleave (o2 :: out3) ss2) = c :: cs
              have hAB : pre ++ (jsTrim ((c :: cs).drop (k + 1)) ++ post) =
                  (c :: cs).drop (k + 1) := by
                conv_rhs => rw [hdec]
                simp [List.append_assoc]
              rw [hss2eq, he2, hAB, List.take_append_drop]
        · obtain ⟨out2, hrec, rfl⟩ := Option.map_eq_some'.mp h
          obtain ⟨seps2, hl2, hw2, he2⟩ := ih _ _ hrec
          obtain ⟨pre, post, hpre, hpost2, hdec⟩ := jsTrim_decomp ((c :: cs).drop m)
          cases out2 with
          | nil =>
            have hnil : jsTrim ((c :: cs).drop m) = [] := by
              cases seps2 with
              | nil => exact he2.symm
              | cons a b => simp at hl2
            refine ⟨[(c :: cs).drop m], rfl, ?_, ?_⟩
            · intro s hs ch hch
              simp only [List.mem_singleton] at hs
              subst hs
              exact all_ws_of_jsTrim_eq_nil hnil ch hch
            · show (c :: cs).take m ++ ((c :: cs).drop m ++ interleave [] []) = c :: cs
              simp [interleave, List.take_append_drop]
          | cons o2 out3 =>
            obtain ⟨ss2, hss2len, hss2ws, hss2eq⟩ :=
              interleave_absorb hpost2 (o2 :: out3) seps2 (by simp) hl2 hw2
            refine ⟨pre :: ss2, by simp [hss2len], ?_, ?_⟩
            · intro s hs
              rcases List.mem_cons.mp hs with h1 | h1
              · subst h1; exact hpre
              · exact hss2ws s h1
            · show (c :: cs).take m ++ (pre ++ interleave (o2 :: out3) ss2) = c :: cs
              have hAB : pre ++ (jsTrim ((c :: cs).drop m) ++ post) = (c :: cs).drop m := by
                conv_rhs => rw [hdec]
                simp [List.append_assoc]
              rw [hss2eq, he2, hAB, List.take_append_drop]

theorem sorted_perm_unique {β : Type} :
    ∀ (canon : List (Nat × β)), canon.Pairwise (fun a b => a.1 < b.1) →
      ∀ l, l.Perm canon → l.Sorted (@keyLE β) → l = canon := by
  intro canon
  induction canon with
  | nil => intro _ l hp _; exact hp.eq_nil
  | cons c cstail ih =>
    intro hpw l hp hs
    cases l with
    | nil =>
      have := hp.length_eq
      simp at this
    | cons x xs =>
      have hx : x = c := by
        have hcmem : c ∈ x :: xs := hp.mem_iff.mpr (List.mem_cons_self c cstail)
        rcases List.mem_cons.mp hcmem with h | h
        · exact h.symm
        · have hxc : x.1 ≤ c.1 := (List.sorted_cons.mp hs).1 c h
          have hxmem : x ∈ c :: cstail := hp.mem_iff.mp (List.mem_cons_self x xs)
          rcases List.mem_cons.mp hxmem with h2 | h2
          · exact h2
          · have hlt : c.1 < x.1 := (List.pairwise_cons.mp hpw).1 x h2
            exact absurd hxc (Nat.not_le.mpr hlt)
      subst hx
      rw [ih (List.pairwise_cons.mp hpw).2 xs hp.cons_inv (List.sorted_cons.mp hs).2]

theorem promiseAll_error {ε α : Type} :
    ∀ (results : List (Except ε α)) (e : ε), Except.error e ∈ results →
      ∃ e2, promiseAll results = Except.error e2 := by
  intro results
  induction results with
  | nil => intro e h; simp at h
  | cons r rest ih =>
    intro e h
    cases r with
    | error e3 => exact ⟨e3, rfl⟩
    | ok a =>
      rcases List.mem_cons.mp h with h1 | h1
      · simp at h1
      · obtain ⟨e2, he2⟩ := ih e h1
        refine ⟨e2, ?_⟩
        show (promiseAll rest).map (a :: ·) = Except.error e2
        rw [he2]
        rfl

/-- C1 counterexample: contrary to the claim, `combineAudioBuffers` applied to
two buffers that declare different sample rates does NOT fail with a
format-incompatibility error: it succeeds, returning a buffer with the first
buffer's format and both payloads concatenated. The source only captures the
format of buffer 0 and never compares later formats. -/
theorem combineAudioBuffers_no_format_check :
    mismatchLeft.format.sampleRate ≠ mismatchRight.format.sampleRate ∧
    combineAudioBuffers [mismatchLeft, mismatchRight] =
      Except.ok ⟨mismatchLeft.format, [1, 2, 3, 4], []⟩ :=
  ⟨by decide, rfl⟩

/-- C1 amended: for two or more decodable buffers, even when a later buffer
declares a format different from the first buffer's, `combineAudioBuffers`
performs no compatibility check and raises no error naming the offending index:
it returns a combined buffer carrying the first buffer's format and the
concatenation of all sample payloads in input order. -/
theorem combineAudioBuffers_mismatch_concatenates (b1 b2 : WavBuffer)
    (rest : List WavBuffer) (_hne : b1.format ≠ b2.format) :
    combineAudioBuffers (b1 :: b2 :: rest) =
      Except.ok ⟨b1.format, ((b1 :: b2 :: rest).map WavBuffer.data).flatten, []⟩ := rfl

theorem combineAudioBuffers_mismatch_concatenates_witness :
    mismatchLeft.format ≠ mismatchRight.format ∧
    combineAudioBuffers [mismatchLeft, mismatchRight] =
      Except.ok ⟨mismatchLeft.format,
        ([mismatchLeft, mismatchRight].map WavBuffer.data).flatten, []⟩ :=
  ⟨by decide,
   combineAudioBuffers_mismatch_concatenates mismatchLeft mismatchRight [] (by decide)⟩

/-- C2: for every input text and every `maxLength > 0`, whenever `splitText`
returns chunks, every chunk has length at most `maxLength`, and the original
text is exactly the chunks interleaved with whitespace-only separator strings
(the whitespace removed by the trim at each cut point): no other characters are
dropped or duplicated. -/
theorem splitText_reassembles (text : List Char) (m : Nat) (_hm : 1 ≤ m)
    (out : List (List Char)) (h : splitText text m = some out) :
    (∀ ch ∈ out, ch.length ≤ m) ∧
    ∃ seps, seps.length = out.length ∧ (∀ s ∈ seps, ∀ ch ∈ s, isJsWs ch = true) ∧
      interleave out seps = text :=
  ⟨splitTextFuel_chunk_le m text.length text out h,
   splitTextFuel_interleave m text.length text out h⟩

theorem splitText_reassembles_witness :
    1 ≤ 2 ∧ splitText "あ。い".toList 2 = some ["あ。".toList, "い".toList] ∧
    ((∀ ch ∈ (["あ。".toList, "い".toList] : List (List Char)), ch.length ≤ 2) ∧
     ∃ seps, seps.length = (["あ。".toList, "い".toList] : List (List Char)).length ∧
       (∀ s ∈ seps, ∀ ch ∈ s, isJsWs ch = true) ∧
       interleave ["あ。".toList, "い".toList] seps = "あ。い".toList) :=
  ⟨by decide, by decide,
   splitText_reassembles "あ。い".toList 2 (by decide) _ (by decide)⟩

/-- C3: the fan-in ordering is a function of the dispatch-time position keys
alone. For any canonical tagged result list with strictly increasing keys (the
keys are pairwise distinct by construction: chunk index, or line index), every
completion order — that is, every permutation `l1`, `l2` of the tagged results —
sorts back to the same canonical list, so the buffer sequence handed to
reassembly is identical regardless of completion timing. -/
theorem fanIn_order_invariance {β : Type} (canon l1 l2 : List (Nat × β))
    (hc : canon.Pairwise (fun a b => a.1 < b.1))
    (h1 : l1.Perm canon) (h2 : l2.Perm canon) :
    sortByIndex l1 = canon ∧ sortByIndex l2 = canon ∧
    (sortByIndex l1).map Prod.snd = (sortByIndex l2).map Prod.snd := by
  have e1 : sortByIndex l1 = canon :=
    sorted_perm_unique canon hc _ ((List.perm_insertionSort _ l1).trans h1)
      (List.sorted_insertionSort _ l1)
  have e2 : sortByIndex l2 = canon :=
    sorted_perm_unique canon hc _ ((List.perm_insertionSort _ l2).trans h2)
      (List.sorted_insertionSort _ l2)
  exact ⟨e1, e2, by rw [e1, e2]⟩

theorem fanIn_order_invariance_witness :
    ([(0, 10), (1, 20)] : List (Nat × Nat)).Pairwise (fun a b => a.1 < b.1) ∧
    ([(1, 20), (0, 10)] : List (Nat × Nat)).Perm [(0, 10), (1, 20)] ∧
    sortByIndex [(1, 20), (0, 10)] = [(0, 10), (1, 20)] ∧
    sortByIndex [(0, 10), (1, 20)] = [(0, 10), (1, 20)] ∧
    (sortByIndex [(1, 20), (0, 10)]).map Prod.snd =
      (sortByIndex [(0, 10), (1, 20)]).map Prod.snd := by
  have h := fanIn_order_invariance [(0, 10), (1, 20)] [(1, 20), (0, 10)]
    [(0, 10), (1, 20)] (by decide) (by decide) (by decide)
  exact ⟨by decide, by decide, h.1, h.2.1, h.2.2⟩

/-- C4: if any one of the concurrently dispatched synthesis units fails, the
whole run fails: the joint await rejects, no buffer list reaches reassembly,
and — since the source writes the output file only from the success payload —
no output file is produced for that run. -/
theorem failFast_run (results : List (Except String WavBuffer)) (e : String)
    (h : Except.error e ∈ results) :
    ∃ e2, runSynthesis results = Except.error e2 := by
  obtain ⟨e2, he2⟩ := promiseAll_error results e h
  exact ⟨e2, by simp [runSynthesis, he2]⟩

theorem failFast_run_witness :
    Except.error "boom" ∈
      ([Except.ok ⟨⟨1, 1, 24000, 16⟩, [1], []⟩, Except.error "boom"] :
        List (Except String WavBuffer)) ∧
    ∃ e2, runSynthesis [Except.ok ⟨⟨1, 1, 24000, 16⟩, [1], []⟩, Except.error "boom"] =
      Except.error e2 :=
  ⟨List.mem_cons_of_mem _ (List.mem_cons_self _ _),
   failFast_run _ "boom" (List.mem_cons_of_mem _ (List.mem_cons_self _ _))⟩

/-- C5: for positive durations, when the background is shorter than the voice
the mix command loops it with `loopCount = ceil(voiceDuration / bgmDuration)`
copies of the background input (at least one) and a concat filter of that
arity; when the background is at least as long as the voice it is used once,
with no concat filter in the chain. -/
theorem bgmLoopPlan (vf bf : String) (v b vol : ℚ) (hv : 0 < v) (hb : 0 < b) :
    (b < v →
      buildMixCommand vf bf v b vol =
        { inputs := vf :: List.replicate (⌈v / b⌉).toNat bf
          filters := [MixFilter.concatBgm (⌈v / b⌉).toNat, MixFilter.bgmVolume vol,
                      MixFilter.amixDurationFirst] } ∧
      1 ≤ (⌈v / b⌉).toNat) ∧
    (v ≤ b →
      buildMixCommand vf bf v b vol =
        { inputs := [vf, bf]
          filters := [MixFilter.bgmVolume vol, MixFilter.amixDurationFirst] }) := by
  constructor
  · intro hlt
    constructor
    · simp [buildMixCommand, hlt]
    · have hpos : (0 : ℚ) < v / b := div_pos hv hb
      have := Int.ceil_pos.mpr hpos
      omega
  · intro hge
    have hnlt : ¬b < v := not_lt.mpr hge
    simp [buildMixCommand, hnlt]

theorem bgmLoopPlan_witness :
    (0 : ℚ) < 125 ∧ (0 : ℚ) < 40 ∧ (40 : ℚ) < 125 ∧ (30 : ℚ) ≤ 200 ∧
    buildMixCommand "voice.wav" "bgm.mp3" 125 40 (1 / 20) =
      { inputs := "voice.wav" :: List.replicate 4 "bgm.mp3"
        filters := [MixFilter.concatBgm 4, MixFilter.bgmVolume (1 / 20),
                    MixFilter.amixDurationFirst] } ∧
    buildMixCommand "voice.wav" "bgm.mp3" 30 200 (1 / 20) =
      { inputs := ["voice.wav", "bgm.mp3"]
        filters := [MixFilter.bgmVolume (1 / 20), MixFilter.amixDurationFirst] } := by
  have hceil : (⌈(125 : ℚ) / 40⌉).toNat = 4 := by
    have h4 : ⌈(125 : ℚ) / 40⌉ = 4 := by
      rw [Int.ceil_eq_iff]
      norm_num
    rw [h4]
    rfl
  have h1 := (bgmLoopPlan "voice.wav" "bgm.mp3" 125 40 (1 / 20) (by decide) (by decide)).1
    (by decide)
  have h2 := (bgmLoopPlan "voice.wav" "bgm.mp3" 30 200 (1 / 20) (by decide) (by decide)).2
    (by decide)
  refine ⟨by decide, by decide, by decide, by decide, ?_, h2⟩
  rw [h1.1, hceil]

/-- C6: parsing the line `@2(pitch=-0.1, speed=1.2): text` yields a
`DialogueLine` with speaker id 2, pitch -0.1, speed 1.2 and the intonation
scale left unset; and — universally, for every dialogue line — the synthesis
units built for the line cover its chunks one-to-one in order, and every such
unit carries the line's override where present and the run-level default where
absent. The example line instantiates this with overridden pitch and speed and
a defaulted intonation scale. -/
theorem dialogueLine_overrides (dp di ds : ℚ) :
    parseDialogueScript "@2(pitch=-0.1, speed=1.2): text".toList =
      [⟨2, "text".toList, some (-0.1), none, some 1.2⟩] ∧
    (∀ (line : DialogueLine) (units : List VoiceRequest),
      buildLineUnits dp di ds line = some units →
      (∃ chunks, splitText line.text 600 = some chunks ∧
        units.map VoiceRequest.text = chunks) ∧
      ∀ u ∈ units,
        u.characterId = line.characterId ∧
        u.pitch = line.pitch.getD dp ∧
        u.intonationScale = line.intonationScale.getD di ∧
        u.speed = line.speed.getD ds) ∧
    buildLineUnits dp di ds ⟨2, "text".toList, some (-0.1), none, some 1.2⟩ =
      some [⟨"text".toList, 2, -0.1, di, 1.2⟩] := by
  refine ⟨?_, ?_, ?_⟩
  case refine_2 =>
    intro line units h
    obtain ⟨chunks, hchunks, rfl⟩ := Option.map_eq_some'.mp h
    constructor
    · refine ⟨chunks, hchunks, ?_⟩
      clear h hchunks
      induction chunks with
      | nil => rfl
      | cons x xs ih => simpa using ih
    · intro u hu
      obtain ⟨ch, hch, rfl⟩ := List.mem_map.mp hu
      exact ⟨rfl, rfl, rfl, rfl⟩
  · have h : parseDialogueScript "@2(pitch=-0.1, speed=1.2): text".toList =
        [⟨2, "text".toList, some (-(decimalValue ['0'] ['1'])), none,
          some (decimalValue ['1'] ['2'])⟩] := rfl
    rw [h]
    have d0 : digitsToNat ['0'] = 0 := rfl
    have d1 : digitsToNat ['1'] = 1 := rfl
    have d2 : digitsToNat ['2'] = 2 := rfl
    have e1 : decimalValue ['0'] ['1'] = 0.1 := by
      simp only [decimalValue, d0, d1, List.length_cons, List.length_nil]
      norm_num
    have e2 : decimalValue ['1'] ['2'] = 1.2 := by
      simp only [decimalValue, d1, d2, List.length_cons, List.length_nil]
      norm_num
    rw [e1, e2]
  · rfl

set_option maxRecDepth 40000 in
theorem dialogueLine_overrides_witness :
    buildLineUnits 0 1 1 overrideLineEx = some overrideUnitsEx ∧
    (∃ chunks, splitText overrideLineEx.text 600 = some chunks ∧
      overrideUnitsEx.map VoiceRequest.text = chunks) ∧
    ∀ u ∈ overrideUnitsEx,
      u.characterId = 5 ∧ u.pitch = (1 / 4 : ℚ) ∧
      u.intonationScale = (1 : ℚ) ∧ u.speed = (1 : ℚ) := by
  have hEq : buildLineUnits 0 1 1 overrideLineEx = some overrideUnitsEx := rfl
  have h := (dialogueLine_overrides 0 1 1).2.1 overrideLineEx overrideUnitsEx hEq
  exact ⟨hEq, h.1, h.2⟩

/-- C8: combining a single buffer returns exactly that buffer, unchanged — even
a buffer whose byte-level representation carries extra non-canonical content
that any decode/re-encode round trip would discard. -/
theorem combineAudioBuffers_singleton (b : WavBuffer) :
    combineAudioBuffers [b] = Except.ok b := rfl

/-- C9: `splitText` terminates for every text and every `maxLength ≥ 1`: each
loop iteration strictly shortens the remaining text (a sentence cut removes at
least one character, a hard cut removes `maxLength` characters), so one fuel
unit per input character always suffices to reach the empty remainder. -/
theorem splitText_terminates (text : List Char) (m : Nat) (hm : 1 ≤ m) :
    (splitText text m).isSome = true :=
  splitTextFuel_isSome m hm text.length text le_rfl

theorem splitText_terminates_witness :
    1 ≤ 1 ∧ (splitText "ab".toList 1).isSome = true :=
  ⟨by decide, splitText_terminates "ab".toList 1 (by decide)⟩

/-- C10: in single-speaker (monologue) mode a missing character id makes the
run fail with the character-id-required error, before any chunking happens and
before any synthesis request exists; dialogue mode ignores the run-level
character id entirely, so it plans the same requests with or without one. -/
theorem monologue_requires_characterId (text text2 : List Char) (cid : Nat)
    (dp di ds : ℚ) (h1 : text ≠ []) (h2 : text.length ≤ MAX_TEXT_LENGTH)
    (h3 : isDialogueScript text = false) (h4 : isDialogueScript text2 = true) :
    planRequests text none dp di ds = Except.error GenError.characterIdRequired ∧
    planRequests text2 none dp di ds = planRequests text2 (some cid) dp di ds := by
  constructor
  · have hlen : ¬MAX_TEXT_LENGTH < text.length := Nat.not_lt.mpr h2
    simp [planRequests, h1, h3, hlen]
  · by_cases ha : text2 = []
    · simp [planRequests, ha]
    · by_cases hb : MAX_TEXT_LENGTH < text2.length
      · simp [planRequests, ha, hb]
      · simp [planRequests, ha, hb, h4]

theorem monologue_requires_characterId_witness :
    "hello".toList ≠ [] ∧ "hello".toList.length ≤ MAX_TEXT_LENGTH ∧
    isDialogueScript "hello".toList = false ∧
    isDialogueScript "@1: hi".toList = true ∧
    planRequests "hello".toList none 0 1 1 = Except.error GenError.characterIdRequired ∧
    planRequests "@1: hi".toList none 0 1 1 = planRequests "@1: hi".toList (some 3) 0 1 1 := by
  have h := monologue_requires_characterId "hello".toList "@1: hi".toList 3 0 1 1
    (by decide) (by decide) (by decide) (by decide)
  exact ⟨by decide, by decide, by decide, by decide, h.1, h.2⟩

theorem isEmpty_eq_false_of_ne {α : Type} {l : List α} (h : l ≠ []) :
    l.isEmpty = false := by
  cases l with
  | nil => exact absurd rfl h
  | cons a as => rfl

theorem ne_nil_of_isEmpty_eq_false {α : Type} {l : List α} (h : l.isEmpty = false) :
    l ≠ [] := by
  cases l with
  | nil => simp at h
  | cons a as => simp

theorem matchAfterColon_iff (rest : List Char) :
    matchAfterColon rest = true ↔ SpecRemainingText rest := by
  set p : Char → Bool := fun c => !isLineTerm c with hp_def
  set t : List Char := (rest.reverse.takeWhile p).reverse with ht_def
  set pre : List Char := (rest.reverse.dropWhile p).reverse with hpre_def
  have hsplit : rest = pre ++ t := by
    rw [hpre_def, ht_def]
    conv_lhs => rw [← List.reverse_reverse rest]
    conv_lhs => rw [← List.takeWhile_append_dropWhile p rest.reverse]
    rw [List.reverse_append]
  have hlen : rest.length = pre.length + t.length := by
    conv_lhs => rw [hsplit]
    rw [List.length_append]
  have hunfold : matchAfterColon rest =
      (!t.isEmpty && (rest.take (rest.length - t.length)).all isJsWs) := by
    rw [ht_def, hp_def]
    rfl
  rw [hunfold]
  simp only [Bool.and_eq_true, List.all_eq_true]
  constructor
  · rintro ⟨hne, hall⟩
    have ht_ne : t ≠ [] := by
      intro hnil
      rw [hnil] at hne
      simp at hne
    refine ⟨pre, t, hsplit, ?_, ht_ne, ?_⟩
    · have hcnt : rest.length - t.length = pre.length := by omega
      rw [hcnt] at hall
      have htake2 : rest.take pre.length = pre := by
        conv_lhs => rw [hsplit]
        exact List.take_left _ _
      rw [htake2] at hall
      exact hall
    · intro c hc
      rw [ht_def] at hc
      have h2 := List.mem_takeWhile_imp (List.mem_reverse.mp hc)
      rw [hp_def] at h2
      simp at h2
      exact h2
  · rintro ⟨w, t0, heq, hw, ht0ne, ht0⟩
    have hallp : ∀ x ∈ t0.reverse, p x = true := by
      intro x hx
      rw [hp_def]
      show (!isLineTerm x) = true
      rw [ht0 x (List.mem_reverse.mp hx)]
      rfl
    have hrev : rest.reverse = t0.reverse ++ w.reverse := by
      rw [heq, List.reverse_append]
    have hteq : t = (w.reverse.takeWhile p).reverse ++ t0 := by
      rw [ht_def, hrev, (takeWhile_append_all t0.reverse w.reverse hallp).1,
        List.reverse_append, List.reverse_reverse]
    have htlen : t.length = (w.reverse.takeWhile p).length + t0.length := by
      rw [hteq]
      simp
    have hpos : 0 < t0.length := List.length_pos.mpr ht0ne
    constructor
    · have ht_ne : t ≠ [] := by
        intro hnil
        have h0 : t.length = 0 := by rw [hnil]; rfl
        omega
      rw [isEmpty_eq_false_of_ne ht_ne]
      rfl
    · intro c hc
      have hrlen : rest.length = w.length + t0.length := by
        rw [heq]
        simp
      have hsub : rest.length - t.length =
          w.length - (w.reverse.takeWhile p).length := by omega
      rw [hsub, heq, List.take_append_of_le_length (by omega)] at hc
      exact hw c (List.mem_of_mem_take hc)

theorem lineMatch_isSome_iff (line : List Char) :
    (lineMatch line).isSome = true ↔ SpecDialoguePattern line := by
  constructor
  · intro h
    cases line with
    | nil => simp [lineMatch] at h
    | cons a r0 =>
      simp only [lineMatch] at h
      split at h
      swap
      · simp at h
      rename_i ha
      subst ha
      split at h
      · simp at h
      rename_i hds
      split at h
      · simp at h
      rename_i b r1 hdrop
      split at h
      · rename_i hb
        subst hb
        split at h
        swap
        · simp at h
        rename_i hmc
        have hr0 : r0 = r0.takeWhile Char.isDigit ++ (':' :: r1) := by
          conv_lhs => rw [← List.takeWhile_append_dropWhile Char.isDigit r0]
          rw [hdrop]
        refine ⟨r0.takeWhile Char.isDigit, r1,
          ne_nil_of_isEmpty_eq_false (by simpa using hds),
          fun c hc => List.mem_takeWhile_imp hc,
          (matchAfterColon_iff r1).mp hmc, Or.inl ?_⟩
        conv_lhs => rw [hr0]
        rfl
      · rename_i hb
        split at h
        swap
        · simp at h
        rename_i hb2
        subst hb2
        split at h
        · simp at h
        rename_i hps
        split at h
        · simp at h
        rename_i e r3 hdrop2
        split at h
        swap
        · simp at h
        rename_i he
        subst he
        split at h
        · simp at h
        rename_i d rest2
        split at h
        swap
        · simp at h
        rename_i hd
        subst hd
        split at h
        swap
        · simp at h
        rename_i hmc
        have hr0 : r0 = r0.takeWhile Char.isDigit ++ ('(' :: r1) := by
          conv_lhs => rw [← List.takeWhile_append_dropWhile Char.isDigit r0]
          rw [hdrop]
        have hr1 : r1 = r1.takeWhile (fun c => decide (c ≠ ')')) ++ (')' :: ':' :: rest2) := by
          conv_lhs => rw [← List.takeWhile_append_dropWhile (fun c => decide (c ≠ ')')) r1]
          rw [hdrop2]
        refine ⟨r0.takeWhile Char.isDigit, rest2,
          ne_nil_of_isEmpty_eq_false (by simpa using hds),
          fun c hc => List.mem_takeWhile_imp hc,
          (matchAfterColon_iff rest2).mp hmc,
          Or.inr ⟨r1.takeWhile (fun c => decide (c ≠ ')')),
            ne_nil_of_isEmpty_eq_false (by simpa using hps),
            fun c hc => by
              have h2 := List.mem_takeWhile_imp hc
              exact of_decide_eq_true h2, ?_⟩⟩
        conv_lhs => rw [hr0]
        conv_lhs => rw [hr1]
        simp [List.cons_append, List.append_assoc]
  · rintro ⟨ds, rest, hds_ne, hdig, hrt, hcase⟩
    have hmc := (matchAfterColon_iff rest).mpr hrt
    rcases hcase with hline | ⟨ps, hps_ne, hpschar, hline⟩
    · subst hline
      rw [List.cons_append]
      have htake : (ds ++ ':' :: rest).takeWhile Char.isDigit = ds := by
        rw [(takeWhile_append_all ds (':' :: rest) hdig).1]
        simp [List.takeWhile_cons, show Char.isDigit ':' = false from rfl]
      have hdropw : (ds ++ ':' :: rest).dropWhile Char.isDigit = ':' :: rest := by
        rw [(takeWhile_append_all ds (':' :: rest) hdig).2]
        simp [List.dropWhile_cons, show Char.isDigit ':' = false from rfl]
      simp only [lineMatch]
      simp [htake, hdropw, isEmpty_eq_false_of_ne hds_ne, hmc]
    · subst hline
      rw [List.cons_append, List.cons_append]
      have hpsall : ∀ x ∈ ps, (fun c => !decide (c = ')')) x = true := by
        intro x hx
        show (!decide (x = ')')) = true
        rw [decide_eq_false (hpschar x hx)]
        rfl
      have htake : (ds ++ '(' :: (ps ++ ')' :: ':' :: rest)).takeWhile Char.isDigit = ds := by
        rw [(takeWhile_append_all ds ('(' :: (ps ++ ')' :: ':' :: rest)) hdig).1]
        simp [List.takeWhile_cons, show Char.isDigit '(' = false from rfl]
      have hdropw : (ds ++ '(' :: (ps ++ ')' :: ':' :: rest)).dropWhile Char.isDigit =
          '(' :: (ps ++ ')' :: ':' :: rest) := by
        rw [(takeWhile_append_all ds ('(' :: (ps ++ ')' :: ':' :: rest)) hdig).2]
        simp [List.dropWhile_cons, show Char.isDigit '(' = false from rfl]
      have hps_take : (ps ++ ')' :: ':' :: rest).takeWhile (fun c => !decide (c = ')')) =
          ps := by
        rw [(takeWhile_append_all ps (')' :: ':' :: rest) hpsall).1]
        simp [List.takeWhile_cons]
      have hps_drop : (ps ++ ')' :: ':' :: rest).dropWhile (fun c => !decide (c = ')')) =
          ')' :: ':' :: rest := by
        rw [(takeWhile_append_all ps (')' :: ':' :: rest) hpsall).2]
        simp [List.dropWhile_cons]
      simp only [lineMatch]
      simp [htake, hdropw, hps_take, hps_drop, isEmpty_eq_false_of_ne hds_ne,
        isEmpty_eq_false_of_ne hps_ne, hmc]

/-- C7: a document is classified as a dialogue script if and only if at least
one of its non-blank trimmed lines decomposes as the pattern "at-sign, integer
speaker id, optional parenthesised parameter list, colon, remaining text"; in
particular a document containing the line `@1: hello` is classified as
dialogue, and a document with no matching line is classified as monologue. -/
theorem isDialogueScript_iff_pattern :
    (∀ content : List Char,
      isDialogueScript content = true ↔
        ∃ line ∈ nonBlankLines content, SpecDialoguePattern line) ∧
    isDialogueScript "@1: hello".toList = true ∧
    isDialogueScript "hello\nworld".toList = false := by
  refine ⟨?_, by decide, by decide⟩
  intro content
  rw [isDialogueScript, List.any_eq_true]
  constructor
  · rintro ⟨l, hl, hp⟩
    exact ⟨l, hl, (lineMatch_isSome_iff l).mp hp⟩
  · rintro ⟨l, hl, hp⟩
    exact ⟨l, hl, (lineMatch_isSome_iff l).mpr hp⟩
